import Mathlib

/- Shallow embedding of
   src/windows/classification_cpu/classification_cpu/openvino/include/details/ie_cnn_network_iterator.hpp
   (class InferenceEngine::details::CNNNetworkIterator).

   Layers (CNNLayer pointers) are modelled by natural-number identities; pointer
   equality on layer handles is equality of identities.  A DataPtr records the
   consumer map getInputTo (the consumer layer ids, in map order) and the weak
   creator reference, with getCreatorLayer().lock() modelled as an Option (none
   models a null creator, e.g. for a graph input).  An entry of CNNLayer.insData
   is the result of locking one weak data reference: none models an expired weak
   pointer, whose unchecked dereference in next() would be an empty-handle
   dereference, so next? returns none in that case.  An ICNNNetwork exposes the
   ordered input-data map, the table from layer id to layer, and the finite list
   of ids of the layers it owns. -/

/-- Model of a DataPtr: the consumer map `getInputTo` (consumer layer ids in map
order) and the locked creator back-reference `getCreatorLayer().lock()`. -/
structure DataPtr where
  inputTo : List Nat
  creatorLayer : Option Nat
deriving DecidableEq

/-- Model of a CNNLayer: its outgoing data (`outData`) and the locked incoming
weak data references (`insData`, an entry is none when `parent.lock()` would
return an empty handle). -/
structure CNNLayer where
  outData : List DataPtr
  insData : List (Option DataPtr)
deriving DecidableEq

/-- Model of an ICNNNetwork: the ordered inputs map (each input's `getInputData`
result), the layer table, and the finite list of layer ids the network owns. -/
structure ICNNNetwork where
  inputs : List DataPtr
  layer : Nat → CNNLayer
  nodes : List Nat

/-- State of a CNNNetworkIterator: the four data members of the class, in
declaration order.  `network` is an `ICNNNetwork*`, modelled as an optional
network identity with none standing for nullptr. -/
structure CNNNetworkIterator where
  visited : List Nat
  nextLayersTovisit : List Nat
  currentLayer : Option Nat
  network : Option Nat
deriving DecidableEq

/-- Default-constructed iterator: every member keeps its default initializer
(empty visited set, empty queue, null current layer, null network). -/
def defaultIter : CNNNetworkIterator := ⟨[], [], none, none⟩

/-- Constructor `CNNNetworkIterator(ICNNNetwork * network)`.  The constructor
parameter shadows the data member `network`, so the member keeps its nullptr
initializer in every branch.  When the inputs map is non-empty and the first
input's consumer map is non-empty, the first consumer becomes the current
layer, is pushed on the queue and inserted into the visited set. -/
def ofNetwork (g : ICNNNetwork) : CNNNetworkIterator :=
  match g.inputs with
  | [] => defaultIter
  | d :: _ =>
    match d.inputTo with
    | [] => defaultIter
    | c :: _ => ⟨[c], [c], some c, none⟩

/-- One conditional enqueue on the pair (queue, visited): the body of
`if (visited.find(x) == visited.end()) { nextLayersTovisit.push_back(x);
visited.insert(x); }`. -/
def pushFresh (qv : List Nat × List Nat) (c : Nat) : List Nat × List Nat :=
  if c ∈ qv.2 then qv else (qv.1 ++ [c], c :: qv.2)

/-- The child-visiting loop of `next()`: for every output DataPtr of the
dequeued layer, for every consumer in its `getInputTo` map, enqueue it if not
yet visited. -/
def visitChildren (outs : List DataPtr) (qv : List Nat × List Nat) : List Nat × List Nat :=
  outs.foldl (fun acc output => output.inputTo.foldl pushFresh acc) qv

/-- The parent-visiting loop of `next()`: for every incoming weak data
reference, `parent.lock()` is dereferenced without a null check (an expired
reference, modelled by none, makes the whole step undefined, hence the Option
result), while the creator back-reference `getCreatorLayer().lock()` is
null-checked: a null creator is skipped, a fresh one is enqueued. -/
def visitParents? : List (Option DataPtr) → List Nat × List Nat → Option (List Nat × List Nat)
  | [], qv => some qv
  | none :: _, _ => none
  | some d :: rest, qv =>
    match d.creatorLayer with
    | none => visitParents? rest qv
    | some p => visitParents? rest (pushFresh qv p)

/-- The private `next()` method: if the queue is empty, return nullptr leaving
the state unchanged; otherwise pop the front layer, expand its children then
its parents, and return the new front of the queue (or nullptr when the queue
became empty).  The result pairs the returned layer pointer with the mutated
iterator state; none models the empty-handle dereference of an expired
incoming weak data reference. -/
def next? (g : ICNNNetwork) (it : CNNNetworkIterator) :
    Option (Option Nat × CNNNetworkIterator) :=
  match it.nextLayersTovisit with
  | [] => some (none, it)
  | n :: rest =>
    match visitParents? (g.layer n).insData
        (visitChildren (g.layer n).outData (rest, it.visited)) with
    | none => none
    | some qv =>
      some (qv.1.head?, { it with nextLayersTovisit := qv.1, visited := qv.2 })

/-- Pre-increment `operator++()`: assigns `currentLayer = next()` and returns
the updated iterator. -/
def preInc? (g : ICNNNetwork) (it : CNNNetworkIterator) : Option CNNNetworkIterator :=
  (next? g it).map fun p => { p.2 with currentLayer := p.1 }

/-- Post-increment `operator++(int)`: assigns `currentLayer = next()` and
returns void (the prior iterator value is not preserved for the caller). -/
def postInc? (g : ICNNNetwork) (it : CNNNetworkIterator) :
    Option (Unit × CNNNetworkIterator) :=
  (next? g it).map fun p => ((), { p.2 with currentLayer := p.1 })

/-- Dereference `operator*`: throws "iterator out of bound" when the current
layer is null, otherwise returns the current layer handle. -/
def derefIter (it : CNNNetworkIterator) : Except String Nat :=
  match it.currentLayer with
  | none => Except.error "iterator out of bound"
  | some n => Except.ok n

/-- Equality `operator==`: compares the stored network pointer member and the
current layer pointer. -/
def eqIter (a b : CNNNetworkIterator) : Bool :=
  a.network == b.network && a.currentLayer == b.currentLayer

/-- Iterated advance: `k` successive calls of `operator++` (pre-increment). -/
def advN? (g : ICNNNetwork) : Nat → CNNNetworkIterator → Option CNNNetworkIterator
  | 0, it => some it
  | k + 1, it => (preInc? g it).bind (advN? g k)

/-- Trace of the nodes a caller observes when iterating until the current layer
is null: emit the current layer, advance, repeat.  `fuel` bounds the number of
emissions; none is returned when fuel runs out before the traversal is done or
an advance hits an expired weak reference. -/
def runTrace? (g : ICNNNetwork) : Nat → CNNNetworkIterator → Option (List Nat)
  | 0, it => if it.currentLayer = none then some [] else none
  | k + 1, it =>
    match it.currentLayer with
    | none => some []
    | some n => (preInc? g it).bind fun it' => (runTrace? g k it').map (n :: ·)

/-- Consumers discovered from a layer by the child-visiting loop: the
concatenated `getInputTo` maps of its outputs. -/
def childrenOf (g : ICNNNetwork) (n : Nat) : List Nat :=
  (g.layer n).outData.flatMap DataPtr.inputTo

/-- Producers discovered from a layer by the parent-visiting loop: the non-null
creator back-references of its incoming data. -/
def parentsOf (g : ICNNNetwork) (n : Nat) : List Nat :=
  (g.layer n).insData.filterMap fun od => od.bind DataPtr.creatorLayer

/-- Neighbours of a layer for the bidirectional expansion: consumers reached
through outgoing edges followed by producers reached through incoming edges. -/
def neighborsOf (g : ICNNNetwork) (n : Nat) : List Nat :=
  childrenOf g n ++ parentsOf g n

/-- Reachability by following outgoing consumer edges and incoming producer
edges in any order: the weakly-connected component of the seed as the spec
defines it. -/
def GReach (g : ICNNNetwork) (a b : Nat) : Prop :=
  Relation.ReflTransGen (fun x y => y ∈ neighborsOf g x) a b

/-- Well-formed finite network: the owned layer ids are distinct, consumers of
the inputs are owned layers, every owned layer has only resolvable incoming
weak data references, and its neighbours are owned layers. -/
def WFGraph (g : ICNNNetwork) : Prop :=
  g.nodes.Nodup ∧
  (∀ d ∈ g.inputs, ∀ c ∈ d.inputTo, c ∈ g.nodes) ∧
  ∀ n ∈ g.nodes, (∀ od ∈ (g.layer n).insData, od.isSome = true) ∧
    ∀ m ∈ neighborsOf g n, m ∈ g.nodes

instance (g : ICNNNetwork) : Decidable (WFGraph g) := by
  unfold WFGraph
  infer_instance

/-- Iterator states that actually arise: the default-constructed iterator, the
iterator constructed from the network, and anything reached from those by
successful advances. -/
inductive Reached (g : ICNNNetwork) : CNNNetworkIterator → Prop where
  | base : Reached g defaultIter
  | ctor : Reached g (ofNetwork g)
  | step {it it'} : Reached g it → preInc? g it = some it' → Reached g it'

/-- Folding the conditional enqueue over a list of candidates; both expansion
loops of `next()` reduce to this. -/
def pushAll (qv : List Nat × List Nat) (cs : List Nat) : List Nat × List Nat :=
  cs.foldl pushFresh qv

/-- Invariant tying a partial traversal to the list `D` of already-dequeued
layers: the current layer is the queue front, the network member is still
null, no layer occurs twice among dequeued and queued layers, the visited set
is exactly dequeued plus queued, every visited layer is a reachable owned
layer, every dequeued layer has all its neighbours visited, and the seed is
visited. -/
structure TravInv (g : ICNNNetwork) (seed : Nat) (D : List Nat)
    (it : CNNNetworkIterator) : Prop where
  hcur : it.currentLayer = it.nextLayersTovisit.head?
  hnet : it.network = none
  hnd : (D ++ it.nextLayersTovisit).Nodup
  hvis : ∀ x, x ∈ it.visited ↔ x ∈ D ∨ x ∈ it.nextLayersTovisit
  hsound : ∀ x ∈ it.visited, GReach g seed x ∧ x ∈ g.nodes
  hdone : ∀ x ∈ D, ∀ y ∈ neighborsOf g x, y ∈ it.visited
  hseed : seed ∈ it.visited

/-- Termination measure of a traversal state: unvisited owned layers plus
queue length.  Every successful advance from a non-empty queue decreases it by
exactly one. -/
def bfsMeasure (g : ICNNNetwork) (it : CNNNetworkIterator) : Nat :=
  (g.nodes.toFinset \ it.visited.toFinset).card + it.nextLayersTovisit.length

/-- Input data of the diamond example network: consumed by layer 0 (A), no
creator layer. -/
def dataI : DataPtr := ⟨[0], none⟩

/-- Data produced by A (0) and consumed by B (1) in the diamond example. -/
def dataAB : DataPtr := ⟨[1], some 0⟩

/-- Data produced by A (0) and consumed by C (2) in the diamond example. -/
def dataAC : DataPtr := ⟨[2], some 0⟩

/-- Data produced by B (1) and consumed by D (3) in the diamond example. -/
def dataBD : DataPtr := ⟨[3], some 1⟩

/-- Data produced by C (2) and consumed by D (3) in the diamond example. -/
def dataCD : DataPtr := ⟨[3], some 2⟩

/-- Diamond example network: input I feeds A (0); A outputs to B (1) and
C (2); B and C both output to D (3). -/
def exG : ICNNNetwork where
  inputs := [dataI]
  layer := fun n =>
    match n with
    | 0 => ⟨[dataAB, dataAC], [some dataI]⟩
    | 1 => ⟨[dataBD], [some dataAB]⟩
    | 2 => ⟨[dataCD], [some dataAC]⟩
    | 3 => ⟨[], [some dataBD, some dataCD]⟩
    | _ => ⟨[], []⟩
  nodes := [0, 1, 2, 3]

/-- One-node network whose single layer 0 consumes the only input. -/
def cnG1 : ICNNNetwork := ⟨[⟨[0], none⟩], fun _ => ⟨[], []⟩, [0]⟩

/-- One-node network whose single layer 1 consumes the only input; a different
network than `cnG1`, over a disjoint layer id. -/
def cnG2 : ICNNNetwork := ⟨[⟨[1], none⟩], fun _ => ⟨[], []⟩, [1]⟩

/-- Network for the parent-lock witness: every layer has one resolvable
incoming data reference whose creator back-reference is null. -/
def gW : ICNNNetwork := ⟨[], fun _ => ⟨[], [some ⟨[], none⟩]⟩, []⟩

/-- Iterator state for the parent-lock witness: layer 7 queued and current. -/
def itW : CNNNetworkIterator := ⟨[], [7], some 7, none⟩

/-- Helper: the parent loop succeeds exactly when every incoming weak data
reference of the processed layer is resolvable. -/
lemma visitParents_isSome (ins : List (Option DataPtr)) (qv : List Nat × List Nat) :
    (visitParents? ins qv).isSome = true ↔ ∀ od ∈ ins, od.isSome = true := by
  induction ins generalizing qv with
  | nil => simp [visitParents?]
  | cons od rest ih =>
    cases od with
    | none => simp [visitParents?]
    | some d =>
      cases h : d.creatorLayer with
      | none => simp [visitParents?, h, ih]
      | some p => simp [visitParents?, h, ih]

/-- Helper: advancing with a non-empty queue succeeds exactly when the dequeued
layer's incoming weak data references are all resolvable. -/
lemma preInc_isSome_iff (g : ICNNNetwork) (it : CNNNetworkIterator) (n : Nat)
    (rest : List Nat) (hq : it.nextLayersTovisit = n :: rest) :
    (preInc? g it).isSome = true ↔ ∀ od ∈ (g.layer n).insData, od.isSome = true := by
  obtain ⟨v0, q0, c0, w0⟩ := it
  simp only at hq
  subst hq
  rw [← visitParents_isSome (g.layer n).insData
    (visitChildren (g.layer n).outData (rest, v0))]
  simp only [preInc?, next?]
  cases visitParents? (g.layer n).insData (visitChildren (g.layer n).outData (rest, v0)) <;>
    simp

/-- C4: construction from a network that has no inputs, or whose first input
has no consumers, yields exactly the default-constructed terminal iterator. -/
theorem c4_empty_construction (g : ICNNNetwork)
    (h : g.inputs = [] ∨ ∃ d t, g.inputs = d :: t ∧ d.inputTo = []) :
    ofNetwork g = defaultIter := by
  rcases h with h | ⟨d, t, hg, hd⟩
  · simp [ofNetwork, h]
  · simp [ofNetwork, hg, hd]

/-- Witness for C4 on a concrete inputless network. -/
theorem c4_empty_construction_witness :
    ofNetwork ⟨[], fun _ => ⟨[], []⟩, []⟩ = defaultIter :=
  c4_empty_construction _ (Or.inl rfl)

/-- C6: dereference fails (with the "iterator out of bound" condition) exactly
when the current layer is null, and returns the current layer handle
otherwise. -/
theorem c6_deref (it : CNNNetworkIterator) :
    ((∃ e, derefIter it = Except.error e) ↔ it.currentLayer = none) ∧
    (∀ n, it.currentLayer = some n → derefIter it = Except.ok n) := by
  refine ⟨⟨?_, ?_⟩, ?_⟩
  · rintro ⟨e, he⟩
    cases h : it.currentLayer with
    | none => rfl
    | some n => simp [derefIter, h] at he
  · intro h
    exact ⟨"iterator out of bound", by simp [derefIter, h]⟩
  · intro n h
    simp [derefIter, h]

/-- Witness for C6: dereferencing a non-terminal iterator returns its layer,
dereferencing the terminal iterator raises. -/
theorem c6_deref_witness :
    derefIter ⟨[], [], some 5, none⟩ = Except.ok 5 ∧
    (∃ e, derefIter defaultIter = Except.error e) :=
  ⟨(c6_deref ⟨[], [], some 5, none⟩).2 5 rfl, (c6_deref defaultIter).1.mpr rfl⟩

/-- Helper: the post-increment is the pre-increment with a unit return. -/
lemma postInc_eq (g : ICNNNetwork) (it : CNNNetworkIterator) :
    postInc? g it = (preInc? g it).map fun s => ((), s) := by
  unfold postInc? preInc?
  cases next? g it <;> rfl

/-- C8: pre- and post-increment produce the identical resulting iterator state;
the post-increment variant returns only unit, never the prior iterator
value. -/
theorem c8_pre_post_increment (g : ICNNNetwork) (it : CNNNetworkIterator) :
    postInc? g it = (preInc? g it).map fun s => ((), s) :=
  postInc_eq g it

/-- C2 (code evaluation at the failing input): the constructor parameter
shadows the `network` member, which therefore stays null, so the exhausted
iterators of two different networks (over disjoint layer ids, with different
visited sets) compare equal under operator== even though each was constructed
from a network. -/
theorem c2_shadowed_network_eval :
    cnG1.inputs ≠ cnG2.inputs ∧
    preInc? cnG1 (ofNetwork cnG1) = some ⟨[0], [], none, none⟩ ∧
    preInc? cnG2 (ofNetwork cnG2) = some ⟨[1], [], none, none⟩ ∧
    eqIter ⟨[0], [], none, none⟩ ⟨[1], [], none, none⟩ = true ∧
    (⟨[0], [], none, none⟩ : CNNNetworkIterator) ≠ ⟨[1], [], none, none⟩ := by
  refine ⟨by decide, by decide, by decide, by decide, by decide⟩

/-- C7: on the diamond network, the traversal emits A (0) first, then B (1)
before C (2) since B's consumer link is enumerated first, then D (3) exactly
once despite its two incoming paths, and the fourth advance reaches the
terminal iterator. -/
theorem c7_diamond_trace :
    runTrace? exG 4 (ofNetwork exG) = some [0, 1, 2, 3] ∧
    (advN? exG 4 (ofNetwork exG)).map CNNNetworkIterator.currentLayer = some none := by
  exact ⟨by decide, by decide⟩

/-- C10: with a non-empty queue, advancing succeeds exactly when every incoming
weak data reference of the dequeued layer is resolvable (the data reference is
dereferenced without a null check), while a null creator back-reference is
merely skipped by the parent loop. -/
theorem c10_parent_locks (g : ICNNNetwork) (it : CNNNetworkIterator) (n : Nat)
    (rest : List Nat) (hq : it.nextLayersTovisit = n :: rest) :
    ((preInc? g it).isSome = true ↔ ∀ od ∈ (g.layer n).insData, od.isSome = true) ∧
    ∀ d ds qv, d.creatorLayer = none →
      visitParents? (some d :: ds) qv = visitParents? ds qv := by
  refine ⟨preInc_isSome_iff g it n rest hq, ?_⟩
  intro d ds qv h
  simp [visitParents?, h]

/-- Witness for C10: a queued layer whose single incoming reference is
resolvable but has a null creator advances successfully, and the null creator
is skipped. -/
theorem c10_parent_locks_witness :
    (preInc? gW itW).isSome = true ∧
    visitParents? [some ⟨[], none⟩] ([], []) = visitParents? [] ([], []) :=
  ⟨(c10_parent_locks gW itW 7 [] rfl).1.mpr (by decide),
   (c10_parent_locks gW itW 7 [] rfl).2 ⟨[], none⟩ [] ([], []) rfl⟩

/-- Characterisation of folding the conditional enqueue: the freshly enqueued
elements form a duplicate-free suffix of the queue, are candidates that were
unvisited, and together with the old visited set cover every candidate. -/
lemma pushAll_spec (cs : List Nat) (q v : List Nat) :
    ∃ fr, pushAll (q, v) cs = (q ++ fr, fr.reverse ++ v) ∧ fr.Nodup ∧
      (∀ x ∈ fr, x ∈ cs ∧ x ∉ v) ∧ (∀ x ∈ cs, x ∈ fr ∨ x ∈ v) := by
  induction cs generalizing q v with
  | nil => exact ⟨[], by simp [pushAll], by simp, by simp, by simp⟩
  | cons c cs ih =>
    have hstep : ∀ q' v' : List Nat,
        pushAll (q', v') (c :: cs) = pushAll (pushFresh (q', v') c) cs := fun _ _ => rfl
    by_cases hc : c ∈ v
    · obtain ⟨fr, h1, h2, h3, h4⟩ := ih q v
      refine ⟨fr, ?_, h2, ?_, ?_⟩
      · rw [hstep]
        have hpf : pushFresh (q, v) c = (q, v) := by simp [pushFresh, hc]
        rw [hpf, h1]
      · intro x hx
        obtain ⟨h5, h6⟩ := h3 x hx
        exact ⟨List.mem_cons_of_mem _ h5, h6⟩
      · intro x hx
        rcases List.mem_cons.mp hx with rfl | hx
        · exact Or.inr hc
        · exact h4 x hx
    · obtain ⟨fr, h1, h2, h3, h4⟩ := ih (q ++ [c]) (c :: v)
      refine ⟨c :: fr, ?_, ?_, ?_, ?_⟩
      · rw [hstep]
        have hpf : pushFresh (q, v) c = (q ++ [c], c :: v) := by simp [pushFresh, hc]
        rw [hpf, h1]
        simp
      · exact List.nodup_cons.mpr ⟨fun hcf => (h3 c hcf).2 (List.mem_cons_self c v), h2⟩
      · intro x hx
        rcases List.mem_cons.mp hx with rfl | hx
        · exact ⟨List.mem_cons_self _ _, hc⟩
        · obtain ⟨h5, h6⟩ := h3 x hx
          exact ⟨List.mem_cons_of_mem _ h5, fun hv => h6 (List.mem_cons_of_mem _ hv)⟩
      · intro x hx
        rcases List.mem_cons.mp hx with rfl | hx
        · exact Or.inl (List.mem_cons_self _ _)
        · rcases h4 x hx with hfr | hcv
          · exact Or.inl (List.mem_cons_of_mem _ hfr)
          · rcases List.mem_cons.mp hcv with rfl | hv
            · exact Or.inl (List.mem_cons_self _ _)
            · exact Or.inr hv

/-- Folding candidates in two batches is folding their concatenation. -/
lemma pushAll_append (qv : List Nat × List Nat) (a b : List Nat) :
    pushAll qv (a ++ b) = pushAll (pushAll qv a) b :=
  List.foldl_append ..

/-- The child loop is the conditional-enqueue fold over the flattened consumer
maps of the outputs. -/
lemma visitChildren_eq (outs : List DataPtr) (qv : List Nat × List Nat) :
    visitChildren outs qv = pushAll qv (outs.flatMap DataPtr.inputTo) := by
  induction outs generalizing qv with
  | nil => rfl
  | cons o outs ih =>
    show visitChildren outs (o.inputTo.foldl pushFresh qv) = _
    rw [ih, List.flatMap_cons, pushAll_append]
    rfl

/-- When every incoming reference is resolvable, the parent loop is the
conditional-enqueue fold over the non-null creator back-references. -/
lemma visitParents_some_eq (ins : List (Option DataPtr)) (qv : List Nat × List Nat)
    (h : ∀ od ∈ ins, od.isSome = true) :
    visitParents? ins qv =
      some (pushAll qv (ins.filterMap fun od => od.bind DataPtr.creatorLayer)) := by
  induction ins generalizing qv with
  | nil => rfl
  | cons od ins ih =>
    have h' : ∀ od ∈ ins, od.isSome = true := fun od hod => h od (List.mem_cons_of_mem _ hod)
    cases od with
    | none => simpa using h none (List.mem_cons_self _ _)
    | some d =>
      cases hc : d.creatorLayer with
      | none =>
        rw [show visitParents? (some d :: ins) qv = visitParents? ins qv from by
          simp [visitParents?, hc]]
        rw [ih qv h']
        simp [hc]
      | some p =>
        rw [show visitParents? (some d :: ins) qv = visitParents? ins (pushFresh qv p) from by
          simp [visitParents?, hc]]
        rw [ih (pushFresh qv p) h']
        simp only [List.filterMap_cons, Option.bind_eq_bind, Option.some_bind, hc]
        rfl

/-- Advancing with an empty queue only nulls the current layer. -/
lemma preInc_nil (g : ICNNNetwork) (it : CNNNetworkIterator)
    (h : it.nextLayersTovisit = []) :
    preInc? g it = some { it with currentLayer := none } := by
  obtain ⟨v0, q0, c0, w0⟩ := it
  simp only at h
  subst h
  rfl

/-- Advancing with a non-empty queue, when the dequeued layer's incoming
references resolve, performs the conditional-enqueue fold over its neighbours
on the popped queue and sets the current layer to the new front. -/
lemma preInc_cons (g : ICNNNetwork) (it : CNNNetworkIterator) (n : Nat)
    (rest : List Nat) (hq : it.nextLayersTovisit = n :: rest)
    (hlock : ∀ od ∈ (g.layer n).insData, od.isSome = true) :
    ∃ q' v', pushAll (rest, it.visited) (neighborsOf g n) = (q', v') ∧
      preInc? g it = some ⟨v', q', q'.head?, it.network⟩ := by
  obtain ⟨v0, q0, c0, w0⟩ := it
  simp only at hq
  subst hq
  refine ⟨(pushAll (rest, v0) (neighborsOf g n)).1,
    (pushAll (rest, v0) (neighborsOf g n)).2, rfl, ?_⟩
  simp only [preInc?, next?]
  rw [visitChildren_eq, visitParents_some_eq _ _ hlock, ← pushAll_append]
  rfl

/-- Structure of any successful advance: either the queue was empty and only
the current layer is nulled, or the front layer was popped and a fresh batch
of its unvisited neighbours was appended to the queue and to the visited
set. -/
lemma preInc_shape (g : ICNNNetwork) (it it' : CNNNetworkIterator)
    (h : preInc? g it = some it') :
    (it.nextLayersTovisit = [] ∧ it' = { it with currentLayer := none }) ∨
    ∃ n rest fr, it.nextLayersTovisit = n :: rest ∧
      it'.visited = fr.reverse ++ it.visited ∧
      it'.nextLayersTovisit = rest ++ fr ∧
      it'.currentLayer = (rest ++ fr).head? ∧
      it'.network = it.network ∧ fr.Nodup ∧
      (∀ x ∈ fr, x ∈ neighborsOf g n ∧ x ∉ it.visited) ∧
      (∀ x ∈ neighborsOf g n, x ∈ fr ∨ x ∈ it.visited) := by
  cases hq : it.nextLayersTovisit with
  | nil =>
    left
    rw [preInc_nil g it hq, Option.some_inj] at h
    refine ⟨rfl, ?_⟩
    rw [← h, hq]
  | cons n rest =>
    right
    have hlock : ∀ od ∈ (g.layer n).insData, od.isSome = true := by
      rw [← preInc_isSome_iff g it n rest hq, h]
      rfl
    obtain ⟨q', v', hqv, hsome⟩ := preInc_cons g it n rest hq hlock
    obtain ⟨fr, hfr, hnd, hf1, hf2⟩ := pushAll_spec (neighborsOf g n) rest it.visited
    rw [hfr, Prod.mk.injEq] at hqv
    obtain ⟨rfl, rfl⟩ := hqv
    rw [h] at hsome
    obtain rfl := Option.some_injective _ hsome.symm
    exact ⟨n, rest, fr, rfl, rfl, rfl, rfl, rfl, hnd, hf1, hf2⟩

/-- Case analysis of the constructor result: either the terminal iterator, or
the seeded iterator at the first consumer of the first input. -/
lemma ofNetwork_eq (g : ICNNNetwork) :
    ofNetwork g = defaultIter ∨
    ∃ d t c u, g.inputs = d :: t ∧ d.inputTo = c :: u ∧
      ofNetwork g = ⟨[c], [c], some c, none⟩ := by
  cases hgi : g.inputs with
  | nil => exact Or.inl (by simp [ofNetwork, hgi])
  | cons d t =>
    cases hd : d.inputTo with
    | nil => exact Or.inl (by simp [ofNetwork, hgi, hd])
    | cons c u => exact Or.inr ⟨d, t, c, u, rfl, hd, by simp [ofNetwork, hgi, hd]⟩

/-- Invariants of every iterator state that actually arises: the current layer
is the queue front, the queue has no duplicates, and queued layers are
visited. -/
lemma reached_inv (g : ICNNNetwork) (it : CNNNetworkIterator) (h : Reached g it) :
    it.currentLayer = it.nextLayersTovisit.head? ∧
    it.nextLayersTovisit.Nodup ∧
    ∀ x ∈ it.nextLayersTovisit, x ∈ it.visited := by
  induction h with
  | base => exact ⟨rfl, List.nodup_nil, by simp [defaultIter]⟩
  | ctor =>
    rcases ofNetwork_eq g with h | ⟨d, t, c, u, -, -, h⟩ <;> rw [h]
    · exact ⟨rfl, List.nodup_nil, by simp [defaultIter]⟩
    · exact ⟨rfl, List.nodup_singleton c, by simp⟩
  | step hR hstep ih =>
    obtain ⟨ih1, ih2, ih3⟩ := ih
    rcases preInc_shape _ _ _ hstep with ⟨hq, rfl⟩ |
        ⟨n, rest, fr, hq, hv, hql, hcl, hnw, hnd, hf1, hf2⟩
    · exact ⟨by simp [hq], ih2, ih3⟩
    · refine ⟨by rw [hcl, hql], ?_, ?_⟩
      · rw [hql, List.nodup_append]
        refine ⟨(hq ▸ ih2).of_cons, hnd, ?_⟩
        intro a ha hafr
        exact (hf1 a hafr).2 (ih3 a (hq ▸ List.mem_cons_of_mem _ ha))
      · intro x hx
        rw [hql, List.mem_append] at hx
        rw [hv, List.mem_append]
        rcases hx with hx | hx
        · exact Or.inr (ih3 x (hq ▸ List.mem_cons_of_mem _ hx))
        · exact Or.inl (List.mem_reverse.mpr hx)

/-- C3: in any state the traversal actually reaches, the frontier queue has no
duplicate and every queued layer is already in the visited set; across one
advance the visited set only grows, and a layer newly present in the queue was
not visited before and is inserted into the visited set by that same
advance. -/
theorem c3_enqueue_once (g : ICNNNetwork) (it : CNNNetworkIterator)
    (hR : Reached g it) :
    it.nextLayersTovisit.Nodup ∧
    (∀ x ∈ it.nextLayersTovisit, x ∈ it.visited) ∧
    ∀ it', preInc? g it = some it' →
      (∀ x ∈ it.visited, x ∈ it'.visited) ∧
      ∀ x ∈ it'.nextLayersTovisit,
        x ∈ it.nextLayersTovisit ∨ (x ∉ it.visited ∧ x ∈ it'.visited) := by
  obtain ⟨-, h2, h3⟩ := reached_inv g it hR
  refine ⟨h2, h3, ?_⟩
  intro it' hstep
  rcases preInc_shape _ _ _ hstep with ⟨hq, rfl⟩ |
      ⟨n, rest, fr, hq, hv, hql, -, -, -, hf1, -⟩
  · exact ⟨fun x hx => hx, fun x hx => Or.inl hx⟩
  · constructor
    · intro x hx
      rw [hv, List.mem_append]
      exact Or.inr hx
    · intro x hx
      rw [hql, List.mem_append] at hx
      rcases hx with hx | hx
      · exact Or.inl (hq ▸ List.mem_cons_of_mem _ hx)
      · refine Or.inr ⟨(hf1 x hx).2, ?_⟩
        rw [hv, List.mem_append]
        exact Or.inl (List.mem_reverse.mpr hx)

/-- Witness for C3 at the freshly constructed iterator of the diamond
network. -/
theorem c3_enqueue_once_witness :
    (ofNetwork exG).nextLayersTovisit.Nodup ∧
    (∀ x ∈ (ofNetwork exG).nextLayersTovisit, x ∈ (ofNetwork exG).visited) ∧
    ∀ it', preInc? exG (ofNetwork exG) = some it' →
      (∀ x ∈ (ofNetwork exG).visited, x ∈ it'.visited) ∧
      ∀ x ∈ it'.nextLayersTovisit,
        x ∈ (ofNetwork exG).nextLayersTovisit ∨
          (x ∉ (ofNetwork exG).visited ∧ x ∈ it'.visited) :=
  c3_enqueue_once exG (ofNetwork exG) Reached.ctor

/-- C5: any actually-arising iterator whose current layer is null is fully
absorbing: any number of further advances returns the very same state, so the
queue and the visited set are unchanged as well. -/
theorem c5_terminal_absorbing (g : ICNNNetwork) (it : CNNNetworkIterator)
    (hR : Reached g it) (hterm : it.currentLayer = none) :
    (∀ k, advN? g k it = some it) ∧ postInc? g it = some ((), it) := by
  have hq : it.nextLayersTovisit = [] := by
    have h1 := (reached_inv g it hR).1
    rw [hterm] at h1
    exact List.head?_eq_none_iff.mp h1.symm
  have hfix : preInc? g it = some it := by
    rw [preInc_nil g it hq]
    obtain ⟨v0, q0, c0, w0⟩ := it
    simp only at hterm
    subst hterm
    rfl
  constructor
  · intro k
    induction k with
    | zero => rfl
    | succ k ih => simp [advN?, hfix, ih]
  · rw [postInc_eq, hfix]
    rfl

/-- Witness for C5: three advances of the default-constructed terminal iterator
over the diamond network leave it untouched, and so does post-increment. -/
theorem c5_terminal_absorbing_witness :
    advN? exG 3 defaultIter = some defaultIter ∧
    postInc? exG defaultIter = some ((), defaultIter) :=
  ⟨(c5_terminal_absorbing exG defaultIter Reached.base rfl).1 3,
   (c5_terminal_absorbing exG defaultIter Reached.base rfl).2⟩

/-- Counting step: adding a duplicate-free batch of unvisited owned layers to
the visited set removes exactly that many layers from the unvisited count. -/
lemma card_sdiff_push (s : Finset Nat) (v fr : List Nat) (hnd : fr.Nodup)
    (hfr : ∀ x ∈ fr, x ∈ s ∧ x ∉ v) :
    (s \ (fr.reverse ++ v).toFinset).card + fr.length = (s \ v.toFinset).card := by
  have hsub : fr.toFinset ⊆ s \ v.toFinset := by
    intro x hx
    rw [List.mem_toFinset] at hx
    obtain ⟨hx1, hx2⟩ := hfr x hx
    exact Finset.mem_sdiff.mpr ⟨hx1, fun hv => hx2 (List.mem_toFinset.mp hv)⟩
  have h1 : s \ (fr.reverse ++ v).toFinset = (s \ v.toFinset) \ fr.toFinset := by
    ext x
    simp only [List.toFinset_append, List.toFinset_reverse, Finset.mem_sdiff,
      Finset.mem_union, List.mem_toFinset]
    tauto
  rw [h1, Finset.card_sdiff hsub]
  have h2 : fr.toFinset.card = fr.length := List.toFinset_card_of_nodup hnd
  have h3 : fr.toFinset.card ≤ (s \ v.toFinset).card := Finset.card_le_card hsub
  omega

/-- One advance from a non-empty queue preserves the traversal invariant,
moving the dequeued layer onto the dequeued list, and decreases the measure by
exactly one. -/
lemma travInv_step (g : ICNNNetwork) (seed n : Nat) (D rest : List Nat)
    (it : CNNNetworkIterator) (hWF : WFGraph g) (hI : TravInv g seed D it)
    (hq : it.nextLayersTovisit = n :: rest) :
    ∃ it', preInc? g it = some it' ∧ TravInv g seed (D ++ [n]) it' ∧
      bfsMeasure g it = bfsMeasure g it' + 1 := by
  obtain ⟨hnodesND, hinp, hWF3⟩ := hWF
  have hnv : n ∈ it.visited :=
    (hI.hvis n).mpr (Or.inr (by rw [hq]; exact List.mem_cons_self _ _))
  have hnn : n ∈ g.nodes := (hI.hsound n hnv).2
  have hlock := (hWF3 n hnn).1
  obtain ⟨q', v', hqv, hsome⟩ := preInc_cons g it n rest hq hlock
  obtain ⟨fr, hfr, hndfr, hf1, hf2⟩ := pushAll_spec (neighborsOf g n) rest it.visited
  rw [hfr, Prod.mk.injEq] at hqv
  obtain ⟨rfl, rfl⟩ := hqv
  have hnd0 : (D ++ n :: rest).Nodup := by
    have := hI.hnd
    rwa [hq] at this
  have hset : ∀ x ∈ D ++ [n] ++ rest, x ∈ it.visited := by
    intro x hx
    rcases List.mem_append.mp hx with hx | hx
    · rcases List.mem_append.mp hx with hx | hx
      · exact (hI.hvis x).mpr (Or.inl hx)
      · have : x = n := by simpa using hx
        subst this
        exact hnv
    · exact (hI.hvis x).mpr (Or.inr (by rw [hq]; exact List.mem_cons_of_mem _ hx))
  refine ⟨_, hsome, ⟨rfl, hI.hnet, ?_, ?_, ?_, ?_, ?_⟩, ?_⟩
  · rw [← List.append_assoc]
    apply List.nodup_append.mpr
    refine ⟨?_, hndfr, ?_⟩
    · have he : D ++ [n] ++ rest = D ++ n :: rest := by simp
      rw [he]
      exact hnd0
    · intro a ha hafr
      exact (hf1 a hafr).2 (hset a ha)
  · intro x
    have hv := hI.hvis x
    rw [hq] at hv
    simp only [List.mem_append, List.mem_reverse, List.mem_cons,
      List.not_mem_nil, or_false] at hv ⊢
    tauto
  · intro x hx
    rcases List.mem_append.mp hx with hx | hx
    · have hxfr := List.mem_reverse.mp hx
      obtain ⟨hnb, -⟩ := hf1 x hxfr
      exact ⟨Relation.ReflTransGen.tail (hI.hsound n hnv).1 hnb, (hWF3 n hnn).2 x hnb⟩
    · exact hI.hsound x hx
  · intro x hx y hy
    rw [List.mem_append]
    rcases List.mem_append.mp hx with hx | hx
    · exact Or.inr (hI.hdone x hx y hy)
    · have : x = n := by simpa using hx
      subst this
      rcases hf2 y hy with hyf | hyv
      · exact Or.inl (List.mem_reverse.mpr hyf)
      · exact Or.inr hyv
  · exact List.mem_append.mpr (Or.inr hI.hseed)
  · have hfrn : ∀ x ∈ fr, x ∈ g.nodes.toFinset ∧ x ∉ it.visited := by
      intro x hx
      obtain ⟨hnb, hxv⟩ := hf1 x hx
      exact ⟨List.mem_toFinset.mpr ((hWF3 n hnn).2 x hnb), hxv⟩
    have hcard := card_sdiff_push g.nodes.toFinset it.visited fr hndfr hfrn
    simp only [bfsMeasure, hq, List.length_cons, List.length_append]
    omega

/-- Closure argument: if the seed is in a set closed under the neighbour
relation, the whole weakly-connected component of the seed is in the set. -/
lemma greach_mem (g : ICNNNetwork) (seed : Nat) (v : List Nat) (hseed : seed ∈ v)
    (hcl : ∀ x ∈ v, ∀ y ∈ neighborsOf g x, y ∈ v) :
    ∀ x, GReach g seed x → x ∈ v := by
  intro x h
  unfold GReach at h
  induction h with
  | refl => exact hseed
  | tail hab hbc ih => exact hcl _ ih _ hbc

/-- Finished traversal: with an empty queue, the dequeued list is exactly the
weakly-connected component of the seed, and the iterator is terminal. -/
lemma runTrace_done (g : ICNNNetwork) (seed fuel : Nat) (D : List Nat)
    (it : CNNNetworkIterator) (hI : TravInv g seed D it)
    (hq : it.nextLayersTovisit = []) :
    ∃ E t, runTrace? g fuel it = some E ∧ E.length ≤ fuel ∧ (D ++ E).Nodup ∧
      (∀ x, x ∈ D ++ E ↔ GReach g seed x) ∧
      advN? g E.length it = some t ∧ t.currentLayer = none ∧ t.network = none := by
  have hcur : it.currentLayer = none := by rw [hI.hcur, hq]; rfl
  have hvd : ∀ x, x ∈ it.visited ↔ x ∈ D := by
    intro x
    rw [hI.hvis x, hq]
    simp
  refine ⟨[], it, ?_, Nat.zero_le _, ?_, ?_, rfl, hcur, hI.hnet⟩
  · cases fuel <;> simp [runTrace?, hcur]
  · have := hI.hnd
    rwa [hq] at this
  · intro x
    rw [List.append_nil]
    constructor
    · intro hx
      exact (hI.hsound x ((hvd x).mpr hx)).1
    · intro hx
      refine (hvd x).mp (greach_mem g seed it.visited hI.hseed ?_ x hx)
      intro a ha y hy
      exact hI.hdone a ((hvd a).mp ha) y hy

/-- Unfolding of one emission of the trace when the current layer exists. -/
lemma runTrace_succ_some (g : ICNNNetwork) (k : Nat) (it : CNNNetworkIterator)
    (n : Nat) (hcur : it.currentLayer = some n) :
    runTrace? g (k + 1) it =
      (preInc? g it).bind fun it' => (runTrace? g k it').map (n :: ·) := by
  obtain ⟨v0, q0, c0, w0⟩ := it
  simp only at hcur
  subst hcur
  rfl

/-- Main run lemma: from any state satisfying the traversal invariant, fuel at
least the measure completes the traversal; the emitted trace extends the
dequeued list to exactly the weakly-connected component of the seed, without
duplicates, and the final iterator is terminal with a null network member. -/
lemma runTrace_inv (g : ICNNNetwork) (seed : Nat) (hWF : WFGraph g) :
    ∀ fuel D it, TravInv g seed D it → bfsMeasure g it ≤ fuel →
    ∃ E t, runTrace? g fuel it = some E ∧ E.length ≤ fuel ∧ (D ++ E).Nodup ∧
      (∀ x, x ∈ D ++ E ↔ GReach g seed x) ∧
      advN? g E.length it = some t ∧ t.currentLayer = none ∧ t.network = none := by
  intro fuel
  induction fuel with
  | zero =>
    intro D it hI hm
    cases hq : it.nextLayersTovisit with
    | nil => exact runTrace_done g seed 0 D it hI hq
    | cons n rest =>
      exfalso
      have h1 : bfsMeasure g it =
          (g.nodes.toFinset \ it.visited.toFinset).card + (rest.length + 1) := by
        simp [bfsMeasure, hq]
      omega
  | succ k ih =>
    intro D it hI hm
    cases hq : it.nextLayersTovisit with
    | nil => exact runTrace_done g seed (k + 1) D it hI hq
    | cons n rest =>
      obtain ⟨it', hsome, hI', hm'⟩ := travInv_step g seed n D rest it hWF hI hq
      obtain ⟨E', t, hrun, hlen, hnd, hiff, hadv, ht1, ht2⟩ :=
        ih (D ++ [n]) it' hI' (by omega)
      have hcur : it.currentLayer = some n := by rw [hI.hcur, hq]; rfl
      have hDE : D ++ n :: E' = (D ++ [n]) ++ E' := by simp
      refine ⟨n :: E', t, ?_, by simpa using Nat.succ_le_succ hlen, ?_, ?_, ?_, ht1, ht2⟩
      · rw [runTrace_succ_some g k it n hcur, hsome]
        simp [hrun]
      · rw [hDE]
        exact hnd
      · intro x
        rw [hDE]
        exact hiff x
      · show advN? g (E'.length + 1) it = some t
        rw [show advN? g (E'.length + 1) it = (preInc? g it).bind (advN? g E'.length)
          from rfl, hsome]
        exact hadv

/-- Initial state: when the first input has a first consumer, the constructed
iterator satisfies the traversal invariant seeded at that consumer, and its
measure is at most the number of owned layers. -/
lemma travInv_init (g : ICNNNetwork) (d : DataPtr) (c : Nat) (hWF : WFGraph g)
    (h1 : g.inputs.head? = some d) (h2 : d.inputTo.head? = some c) :
    ofNetwork g = ⟨[c], [c], some c, none⟩ ∧
    TravInv g c [] (ofNetwork g) ∧ bfsMeasure g (ofNetwork g) ≤ g.nodes.length := by
  obtain ⟨hnodesND, hinp, hWF3⟩ := hWF
  have hdmem : d ∈ g.inputs := by
    cases hgi : g.inputs with
    | nil => simp [hgi] at h1
    | cons a t =>
      have ha : a = d := by simpa [hgi] using h1
      rw [ha]
      exact List.mem_cons_self _ _
  have hcmem : c ∈ d.inputTo := by
    cases hd : d.inputTo with
    | nil => simp [hd] at h2
    | cons a u =>
      have ha : a = c := by simpa [hd] using h2
      rw [ha]
      exact List.mem_cons_self _ _
  have hcnodes : c ∈ g.nodes := hinp d hdmem c hcmem
  have h0 : ofNetwork g = ⟨[c], [c], some c, none⟩ := by
    cases hgi : g.inputs with
    | nil => simp [hgi] at h1
    | cons a t =>
      have ha : a = d := by simpa [hgi] using h1
      subst ha
      cases hd : a.inputTo with
      | nil => simp [hd] at h2
      | cons b u =>
        have hb : b = c := by simpa [hd] using h2
        subst hb
        simp [ofNetwork, hgi, hd]
  refine ⟨h0, ?_, ?_⟩
  · rw [h0]
    refine ⟨rfl, rfl, by simp, by intro x; simp, ?_, by simp, by simp⟩
    intro x hx
    have hxc : x = c := by simpa using hx
    subst hxc
    exact ⟨Relation.ReflTransGen.refl, hcnodes⟩
  · rw [h0]
    simp only [bfsMeasure]
    have hc : c ∈ g.nodes.toFinset := List.mem_toFinset.mpr hcnodes
    have h4 : ({c} : Finset Nat) ⊆ g.nodes.toFinset := by
      intro x hx
      rw [Finset.mem_singleton] at hx
      subst hx
      exact hc
    have h5 : (g.nodes.toFinset \ [c].toFinset).card = g.nodes.toFinset.card - 1 := by
      have he : [c].toFinset = ({c} : Finset Nat) := by simp
      rw [he, Finset.card_sdiff h4]
      simp
    have h6 : 1 ≤ g.nodes.toFinset.card := Finset.card_pos.mpr ⟨c, hc⟩
    have h7 : g.nodes.toFinset.card ≤ g.nodes.length := List.toFinset_card_le g.nodes
    rw [h5]
    simp only [List.length_singleton]
    omega

/-- C1: for any well-formed network whose first input has a first consumer,
iterating from construction until the cursor equals the terminal sentinel
emits a duplicate-free trace whose members are exactly the weakly-connected
component of that first consumer (following outgoing consumer edges and
incoming producer edges in both directions). -/
theorem c1_component_traversal (g : ICNNNetwork) (d : DataPtr) (c : Nat)
    (hWF : WFGraph g) (h1 : g.inputs.head? = some d)
    (h2 : d.inputTo.head? = some c) :
    ∃ E, runTrace? g g.nodes.length (ofNetwork g) = some E ∧ E.Nodup ∧
      (∀ x, x ∈ E ↔ GReach g c x) ∧
      ∃ t, advN? g E.length (ofNetwork g) = some t ∧ eqIter t defaultIter = true := by
  obtain ⟨h0, hI, hm⟩ := travInv_init g d c hWF h1 h2
  obtain ⟨E, t, hrun, hlen, hnd, hiff, hadv, ht1, ht2⟩ :=
    runTrace_inv g c hWF g.nodes.length [] (ofNetwork g) hI hm
  refine ⟨E, hrun, by simpa using hnd, ?_, t, hadv, ?_⟩
  · intro x
    simpa using hiff x
  · simp [eqIter, defaultIter, ht1, ht2]

/-- Witness for C1 on the diamond network, seeded at layer 0. -/
theorem c1_component_traversal_witness :
    WFGraph exG ∧
    ∃ E, runTrace? exG exG.nodes.length (ofNetwork exG) = some E ∧ E.Nodup ∧
      (∀ x, x ∈ E ↔ GReach exG 0 x) ∧
      ∃ t, advN? exG E.length (ofNetwork exG) = some t ∧ eqIter t defaultIter = true :=
  ⟨by decide, c1_component_traversal exG dataI 0 (by decide) rfl rfl⟩

/-- C9: on any well-formed network the traversal terminates: some number of
advances bounded by the number of owned layers takes the constructed iterator
to the terminal state. -/
theorem c9_termination (g : ICNNNetwork) (hWF : WFGraph g) :
    ∃ k, k ≤ g.nodes.length ∧ ∃ t, advN? g k (ofNetwork g) = some t ∧
      t.currentLayer = none := by
  cases hgi : g.inputs with
  | nil =>
    refine ⟨0, Nat.zero_le _, ofNetwork g, rfl, ?_⟩
    simp [ofNetwork, hgi, defaultIter]
  | cons d tl =>
    cases hd : d.inputTo with
    | nil =>
      refine ⟨0, Nat.zero_le _, ofNetwork g, rfl, ?_⟩
      simp [ofNetwork, hgi, hd, defaultIter]
    | cons c tl2 =>
      obtain ⟨h0, hI, hm⟩ := travInv_init g d c hWF (by rw [hgi]; rfl) (by rw [hd]; rfl)
      obtain ⟨E, t, hrun, hlen, hnd, hiff, hadv, ht1, ht2⟩ :=
        runTrace_inv g c hWF g.nodes.length [] (ofNetwork g) hI hm
      exact ⟨E.length, hlen, t, hadv, ht1⟩

/-- Witness for C9 on the diamond network. -/
theorem c9_termination_witness :
    WFGraph exG ∧ ∃ k, k ≤ exG.nodes.length ∧
      ∃ t, advN? exG k (ofNetwork exG) = some t ∧ t.currentLayer = none :=
  ⟨by decide, c9_termination exG (by decide)⟩
